import Mathlib

/-!
Verification of the UK Top 50 market-structure analysis pipeline.

The definitions below are a shallow embedding of `src/analysis.py`:
Python strings are lists of characters, pandas data frames are records
of column lists, numeric KPI values are rationals, and the `networkx`
graph is a pair of finite sets of nodes and canonically ordered edges.
Pandas missing values (NaN) are `Option.none`; Python exceptions are
the error branch of `Except`.
-/

namespace UKTop50

/-! ## Artist name standardization (`normalize_artist_names`) -/

/-- Per-character model of Python `str.lower` on the ASCII range
(core `Char.toLower` is exactly this case folding). -/
def lowerStr (s : List Char) : List Char := s.map Char.toLower

/-- Model of `re.sub(r"feat\.|ft\.|and", "&", name)`: scan left to
right, replacing each leftmost non-overlapping occurrence of `feat.`,
`ft.` or `and` (alternatives tried in that order) by the canonical
separator, then continuing after the replaced text. -/
def subSep : List Char → List Char
  | 'f' :: 'e' :: 'a' :: 't' :: '.' :: cs => '&' :: subSep cs
  | 'f' :: 't' :: '.' :: cs => '&' :: subSep cs
  | 'a' :: 'n' :: 'd' :: cs => '&' :: subSep cs
  | c :: cs => c :: subSep cs
  | [] => []

/-- Model of Python `str.replace(" ", "")`: delete every space. -/
def removeSpaces (s : List Char) : List Char := s.filter (fun c => c != ' ')

/-- Model of Python `str.split("&")`; empty fragments are kept, and the
empty string splits to `[""]`. -/
def splitAmp : List Char → List (List Char)
  | [] => [[]]
  | '&' :: cs => [] :: splitAmp cs
  | c :: cs =>
    match splitAmp cs with
    | [] => [[c]]
    | t :: ts => (c :: t) :: ts

/-- The inner `clean_artist_name` of `normalize_artist_names`:
lower-case, substitute the separator patterns, delete spaces. -/
def cleanChars (s : List Char) : List Char :=
  removeSpaces (subSep (lowerStr s))

/-- `clean_artist_name` on Lean strings. -/
def clean_artist_name (s : String) : String := ⟨cleanChars s.data⟩

/-- `str.split("&")` on Lean strings. -/
def splitAmpStr (s : String) : List String := (splitAmp s.data).map (fun l => ⟨l⟩)

/-- The `artist_list` value derived from a raw artist credit:
`clean_artist_name` followed by the split on `&`. -/
def artistListOf (raw : String) : List String := splitAmpStr (clean_artist_name raw)

/-- Does one of the three replaced patterns occur at the head of `s`? -/
def startsPat (s : List Char) : Bool :=
  match s with
  | 'f' :: 'e' :: 'a' :: 't' :: '.' :: _ => true
  | 'f' :: 't' :: '.' :: _ => true
  | 'a' :: 'n' :: 'd' :: _ => true
  | _ => false

/-- Does one of the three replaced patterns occur anywhere in `s`? -/
def hasPat : List Char → Bool
  | [] => false
  | c :: cs => startsPat (c :: cs) || hasPat cs

/-- `hasPat` on Lean strings. -/
def hasPatStr (s : String) : Bool := hasPat s.data

/-- Model of pandas `Series.str.contains("&")` on one cell. -/
def containsAmp (s : String) : Bool := s.data.contains '&'

/-! ## The data frame model

A pandas data frame is modelled column-wise: the base columns loaded
from the CSV are plain lists, the derived columns added by the pipeline
are `Option`-wrapped lists (`none` = column not present).  The row
count of a frame is the length of its index, which coincides with the
length of the `artist` column for every frame built by the pipeline. -/

/-! ## The data frame model

A pandas data frame is modelled column-wise: the base columns loaded
from the CSV are plain lists, the derived columns added by the pipeline
are `Option`-wrapped lists (`none` = column not present).  The row
count of a frame is the length of its index, which coincides with the
length of the `artist` column for every frame built by the pipeline. -/

structure DF where
  date : List Int
  position : List Int
  song : List String
  artist : List String
  is_explicit : List Bool
  album_type : List String
  total_tracks : List Int
  duration_ms : List ℚ
  popularity : List ℚ
  artist_clean : Option (List String) := none
  artist_list : Option (List (List String)) := none
  is_collaboration : Option (List Bool) := none
  duration_minutes : Option (List ℚ) := none
  duration_bucket : Option (List (Option String)) := none
  rank_group : Option (List String) := none
deriving DecidableEq

/-- `len(df)`: the number of rows of the frame. -/
def DF.nrows (df : DF) : ℕ := df.artist.length

/-- `normalize_artist_names`: writes the `artist_clean` and
`artist_list` columns into the frame and returns it (the Python
function mutates its argument and returns the same object, so the
returned frame is also the caller's frame after the call). -/
def normalize_artist_names (df : DF) : DF :=
  let cleaned := df.artist.map clean_artist_name
  { df with
    artist_clean := some cleaned
    artist_list := some (cleaned.map splitAmpStr) }

/-- Model of `pd.cut(x, bins=[0, 2, 3, 4, 10], labels=["Short",
"Medium", "Long", "Very Long"])` on one cell: intervals are open on
the left and closed on the right, values outside every bin get the
missing category. -/
def durationBucket (m : ℚ) : Option String :=
  if 0 < m ∧ m ≤ 2 then some "Short"
  else if 2 < m ∧ m ≤ 3 then some "Medium"
  else if 3 < m ∧ m ≤ 4 then some "Long"
  else if 4 < m ∧ m ≤ 10 then some "Very Long"
  else none

/-- `add_duration_features`: writes `duration_minutes` and
`duration_bucket` into the frame and returns it. -/
def add_duration_features (df : DF) : DF :=
  let mins := df.duration_ms.map (fun ms => ms / 60000)
  { df with
    duration_minutes := some mins
    duration_bucket := some (mins.map durationBucket) }

/-- The inner `rank_category` of `create_rank_groups`. -/
def rank_category (rank : Int) : String :=
  if rank ≤ 10 then "Top 10" else "Top 50"

/-- `create_rank_groups`: writes the `rank_group` column into the
frame and returns it. -/
def create_rank_groups (df : DF) : DF :=
  { df with rank_group := some (df.position.map rank_category) }

/-! ## Artist expansion (`create_artist_level_table`)

`df.explode("artist_list")` keeps the original index: each output row
is the original row index paired with one cell of the exploded column.
A non-empty list of length `k` produces `k` rows carrying its elements
in order; an empty list produces a single row whose cell is missing. -/

/-- Explosion of one `artist_list` cell. -/
def explodeCell (l : List String) : List (Option String) :=
  match l with
  | [] => [none]
  | l => l.map some

/-- `create_artist_level_table`, restricted to the exploded column:
the input is the `artist_list` column, the output pairs each produced
row with the index of the track row it was duplicated from. -/
def create_artist_level_table (lists : List (List String)) : List (ℕ × Option String) :=
  lists.enum.flatMap (fun p => (explodeCell p.2).map (fun e => (p.1, e)))

/-! ## KPI engine (`calculate_market_kpis`) -/

/-- Keep-first-occurrence deduplication (pandas semantics), with an
accumulator of already seen elements. -/
def dropDupAux {α : Type} [DecidableEq α] (seen : List α) : List α → List α
  | [] => []
  | x :: xs => if x ∈ seen then dropDupAux seen xs else x :: dropDupAux (x :: seen) xs

/-- Keep-first-occurrence deduplication (pandas `drop_duplicates`). -/
def dropDup {α : Type} [DecidableEq α] (l : List α) : List α := dropDupAux [] l

/-- Insert a `(value, count)` pair into a list sorted by descending
count, keeping earlier pairs first among ties. -/
def insertDesc (p : String × ℕ) : List (String × ℕ) → List (String × ℕ)
  | [] => [p]
  | q :: qs => if q.2 < p.2 then p :: q :: qs else q :: insertDesc p qs

/-- Sort `(value, count)` pairs by descending count. -/
def sortCounts (l : List (String × ℕ)) : List (String × ℕ) := l.foldr insertDesc []

/-- Model of pandas `Series.value_counts()`: missing entries are
dropped, each remaining distinct value is paired with its number of
occurrences, and the pairs are sorted by descending count. -/
def valueCounts (es : List (Option String)) : List (String × ℕ) :=
  let xs := es.filterMap id
  sortCounts ((dropDup xs).map (fun a => (a, xs.count a)))

/-- The named KPI mapping returned by the engine. -/
structure KPIs where
  ACI : ℚ
  Top5Share : ℚ
  UniqueArtists : ℕ
  DiversityScore : ℚ
  CollaborationRatio : ℚ
  ExplicitShare : ℚ
  AlbumDistribution : List (String × ℚ)
  ContentVariety : ℚ
deriving DecidableEq

/-- The exception the engine can raise: `unique_artist_count /
total_tracks` is Python integer division of two `int`s and raises
`ZeroDivisionError` when the track table has no rows. -/
inductive EngineError where
  | zeroDivisionError
deriving DecidableEq

/-- Mean of a boolean column: number of `true` cells over the column
length. -/
def boolMean (l : List Bool) : ℚ := (l.count true : ℚ) / (l.length : ℚ)

/-- `calculate_market_kpis`.  The first component is the returned pair
(KPI mapping and artist frequency table) or the raised exception; the
second component is the state of the caller's `track_df` after the
call (the engine writes the `is_collaboration` column into it before
returning, but raises `ZeroDivisionError` at the `DiversityScore`
division, before that write, when the track table is empty). -/
def calculate_market_kpis (track_df : DF) (artist_df : List (ℕ × Option String)) :
    Except EngineError (KPIs × List (String × ℕ)) × DF :=
  let total := track_df.nrows
  let artist_frequency := valueCounts (artist_df.map (fun r => r.2))
  let aci := (artist_frequency.map (fun p => ((p.2 : ℚ) / (total : ℚ)) ^ 2)).sum
  let top5 := ((artist_frequency.take 5).map (fun p => (p.2 : ℚ) / (total : ℚ))).sum
  let unique := artist_frequency.length
  if total = 0 then
    (.error .zeroDivisionError, track_df)
  else
    let collabCol := track_df.artist.map containsAmp
    let track_df2 := { track_df with is_collaboration := some collabCol }
    let albumCounts := (dropDup track_df.album_type).map
      (fun a => (a, track_df.album_type.count a))
    let kpis : KPIs := {
      ACI := aci
      Top5Share := top5
      UniqueArtists := unique
      DiversityScore := (unique : ℚ) / (total : ℚ)
      CollaborationRatio := boolMean collabCol
      ExplicitShare := boolMean track_df.is_explicit
      AlbumDistribution := (sortCounts albumCounts).map
        (fun p => (p.1, (p.2 : ℚ) / (track_df.album_type.length : ℚ)))
      ContentVariety := ((dropDup track_df.song).length : ℚ) / (total : ℚ) }
    (.ok (kpis, artist_frequency), track_df2)

/-! ## Collaboration network (`build_artist_collaboration_network`) -/

/-- A cell of the dynamically typed `artist_list` column as seen by the
graph builder: a Python list of strings, a plain string (as in an
exploded frame) or a missing value. -/
inductive PdVal where
  | lst (l : List String)
  | str (s : String)
  | na
deriving DecidableEq

/-- An edge is stored with its endpoints in canonical order, so that
the undirected edges `(u, v)` and `(v, u)` coincide. -/
def edgeKey (u v : String) : String × String :=
  if u ≤ v then (u, v) else (v, u)

/-- The `networkx` undirected graph: node set and canonically ordered
edge set. -/
structure Graph where
  nodes : Finset String
  edges : Finset (String × String)
deriving DecidableEq

/-- The empty graph (`nx.Graph()`). -/
def Graph.empty : Graph := ⟨∅, ∅⟩

/-- `graph.add_edge(u, v)`: inserts both endpoints and the edge. -/
def Graph.addEdge (g : Graph) (u v : String) : Graph :=
  ⟨insert u (insert v g.nodes), insert (edgeKey u v) g.edges⟩

/-- All index pairs `i < j` of a list, as the element pairs
`(l[i], l[j])` in loop order. -/
def allPairs {α : Type} : List α → List (α × α)
  | [] => []
  | x :: xs => (xs.map (fun y => (x, y))) ++ allPairs xs

/-- The inner double loop of the builder on one track. -/
def Graph.addPairs (g : Graph) : List (String × String) → Graph
  | [] => g
  | p :: ps => (g.addEdge p.1 p.2).addPairs ps

/-- One step of the builder loop: a cell contributes its pairs only
when it is a list of length greater than one. -/
def buildStep (g : Graph) (cell : PdVal) : Graph :=
  match cell with
  | .lst l => if 1 < l.length then g.addPairs (allPairs l) else g
  | _ => g

/-- `build_artist_collaboration_network`, as a function of the
`artist_list` column of its argument. -/
def build_artist_collaboration_network (col : List PdVal) : Graph :=
  col.foldl buildStep Graph.empty

/-! ## Loader (`load_data`)

The tabular source is modelled after the csv has been read: each raw
cell of the `position` and `date` columns is either missing, a value
that the coercion (`astype(int)` and `pd.to_datetime`) parses, or an
unparsable token; `song` and `artist` cells are missing or text.
The four required columns may individually be absent from the file. -/

/-! ## Loader (`load_data`)

The tabular source is modelled after the csv has been read: each raw
cell of the `position` and `date` columns is either missing, a value
that the coercion (`astype(int)` and `pd.to_datetime`) parses, or an
unparsable token; `song` and `artist` cells are missing or text.
The four required columns may individually be absent from the file. -/

inductive PosCell where
  | missing
  | val (n : Int)
  | bad (tok : String)
deriving DecidableEq

inductive DateCell where
  | missing
  | val (d : Int)
  | bad (tok : String)
deriving DecidableEq

inductive StrCell where
  | missing
  | val (s : String)
deriving DecidableEq

structure RawRow where
  date : DateCell
  position : PosCell
  song : StrCell
  artist : StrCell
deriving DecidableEq

structure RawTable where
  hasDate : Bool
  hasPosition : Bool
  hasSong : Bool
  hasArtist : Bool
  rows : List RawRow
deriving DecidableEq

/-- The exceptions the loader can raise: `dropna(subset=...)` raises a
`KeyError` when a required column is absent, `astype(int)` raises on an
unparsable position, `pd.to_datetime` raises on an unparsable date. -/
inductive LoadError where
  | missingColumn
  | badPosition
  | badDate
deriving DecidableEq

def PosCell.isBadTok : PosCell → Bool
  | .bad _ => true
  | _ => false

def DateCell.isBadTok : DateCell → Bool
  | .bad _ => true
  | _ => false

/-- A row all four of whose required cells are non-missing
(`dropna(subset=["date", "position", "song", "artist"])` keeps it). -/
def RawRow.complete (r : RawRow) : Bool :=
  r.date != .missing && r.position != .missing && r.song != .missing && r.artist != .missing

/-- A loaded track row after type coercion. -/
structure LoadedRow where
  date : Int
  position : Int
  song : String
  artist : String
deriving DecidableEq

/-- Extraction of a validated raw row (the default values are
unreachable: the row is complete and its tokens parsed). -/
def RawRow.extract (r : RawRow) : LoadedRow :=
  { date := match r.date with | .val d => d | _ => 0
    position := match r.position with | .val n => n | _ => 0
    song := match r.song with | .val s => s | _ => ""
    artist := match r.artist with | .val s => s | _ => "" }

/-- `load_data` after the csv read: drop exact duplicates (keeping the
first occurrence), drop rows with a missing required cell (raising if a
required column is absent), coerce `position` to integer and `date` to
a calendar date (raising on the first unparsable surviving cell). -/
def load_data (t : RawTable) : Except LoadError (List LoadedRow) :=
  let d1 := dropDup t.rows
  if ¬(t.hasDate && t.hasPosition && t.hasSong && t.hasArtist) then
    .error .missingColumn
  else
    let d2 := d1.filter RawRow.complete
    if d2.any (fun r => r.position.isBadTok) then .error .badPosition
    else if d2.any (fun r => r.date.isBadTok) then .error .badDate
    else .ok (d2.map RawRow.extract)

/-! ## Concrete frames and tables used by the witnesses and
counterexamples -/

/-- The concrete table of the C8 counterexample: all required columns
present, one row whose position token is unparsable but whose song is
missing. -/
def c8table : RawTable :=
  { hasDate := true, hasPosition := true, hasSong := true, hasArtist := true,
    rows := [{ date := .val 1, position := .bad "x", song := .missing,
               artist := .val "a" }] }

/-- A well-formed concrete table: two identical complete rows and one
incomplete row. -/
def c8good : RawTable :=
  { hasDate := true, hasPosition := true, hasSong := true, hasArtist := true,
    rows := [{ date := .val 10, position := .val 1, song := .val "s",
               artist := .val "a" },
             { date := .val 10, position := .val 1, song := .val "s",
               artist := .val "a" },
             { date := .missing, position := .val 2, song := .val "u",
               artist := .val "b" }] }

/-- A concrete one-row frame whose track lasts 150000 ms. -/
def df150 : DF :=
  { date := [1], position := [1], song := ["s"], artist := ["a"],
    is_explicit := [false], album_type := ["single"], total_tracks := [1],
    duration_ms := [150000], popularity := [50] }

/-- The restriction of a column to its Python-list cells. -/
def keepList : PdVal → Option PdVal
  | .lst l => some (.lst l)
  | _ => none

/-- The KPI mapping of an engine call that returned normally. -/
def resultKPIs (r : Except EngineError (KPIs × List (String × ℕ)) × DF) : Option KPIs :=
  match r.1 with
  | .ok p => some p.1
  | .error _ => none

/-- The empty data frame (the empty filtered table). -/
def emptyDF : DF :=
  { date := [], position := [], song := [], artist := [], is_explicit := [],
    album_type := [], total_tracks := [], duration_ms := [], popularity := [] }

/-- A concrete one-row frame whose only track is credited
`"Artist A feat. Artist B"`. -/
def df3 : DF :=
  { date := [1], position := [1], song := ["s"], artist := ["Artist A feat. Artist B"],
    is_explicit := [false], album_type := ["single"], total_tracks := [1],
    duration_ms := [200000], popularity := [50] }

/-- A concrete two-row frame with one `&`-credit and one solo credit. -/
def dfW : DF :=
  { date := [1, 2], position := [1, 2], song := ["s", "u"], artist := ["a&b", "c"],
    is_explicit := [false, true], album_type := ["single", "album"],
    total_tracks := [1, 1], duration_ms := [100, 200], popularity := [1, 2] }

/-- A concrete one-row frame whose only track is the collaboration
`"a&b"`. -/
def df1 : DF :=
  { date := [1], position := [1], song := ["s"], artist := ["a&b"],
    is_explicit := [false], album_type := ["single"], total_tracks := [1],
    duration_ms := [100], popularity := [1] }

/-- A concrete two-row frame whose tracks are both solo credits by the
same artist. -/
def dfSolo : DF :=
  { date := [1, 2], position := [1, 2], song := ["s", "u"], artist := ["a", "a"],
    is_explicit := [false, false], album_type := ["single", "single"],
    total_tracks := [1, 1], duration_ms := [100, 200], popularity := [1, 2],
    artist_list := some [["a"], ["a"]] }

/-! ## Theorems -/


theorem char_toNat_ofNat {n : ℕ} (h : n < 55296) : (Char.ofNat n).toNat = n := by
  have hv : n.isValidChar := Or.inl h
  simp [Char.ofNat, hv, Char.ofNatAux, Char.toNat, UInt32.toNat, BitVec.toNat_ofNatLt]

theorem toLower_fix {c : Char} (h : ¬(65 ≤ c.toNat ∧ c.toNat ≤ 90)) : c.toLower = c := by
  unfold Char.toLower
  rw [if_neg]
  exact fun hh => h ⟨hh.1, hh.2⟩

theorem toLower_idem (c : Char) : c.toLower.toLower = c.toLower := by
  by_cases h : 65 ≤ c.toNat ∧ c.toNat ≤ 90
  · have hc : c.toLower = Char.ofNat (c.toNat + 32) := by
      unfold Char.toLower
      rw [if_pos ⟨h.1, h.2⟩]
    have h32 : (Char.ofNat (c.toNat + 32)).toNat = c.toNat + 32 :=
      char_toNat_ofNat (by omega)
    rw [hc]
    exact toLower_fix (by rw [h32]; omega)
  · rw [toLower_fix h, toLower_fix h]

theorem subSep_eq_self (s : List Char) (h : hasPat s = false) : subSep s = s := by
  induction s using subSep.induct with
  | case1 cs ih => simp [hasPat, startsPat] at h
  | case2 cs ih => simp [hasPat, startsPat] at h
  | case3 cs ih => simp [hasPat, startsPat] at h
  | case4 c cs h1 h2 h3 ih =>
    rw [subSep.eq_4 c cs h1 h2 h3]
    rw [hasPat, Bool.or_eq_false_iff] at h
    rw [ih h.2]
  | case5 => rfl

theorem mem_subSep {c : Char} : ∀ s : List Char, c ∈ subSep s → c ∈ s ∨ c = '&' := by
  intro s
  induction s using subSep.induct with
  | case1 cs ih =>
    rw [subSep.eq_1]
    intro h
    rcases List.mem_cons.mp h with h | h
    · exact Or.inr h
    · rcases ih h with h | h
      · exact Or.inl (by simp [h])
      · exact Or.inr h
  | case2 cs ih =>
    rw [subSep.eq_2]
    intro h
    rcases List.mem_cons.mp h with h | h
    · exact Or.inr h
    · rcases ih h with h | h
      · exact Or.inl (by simp [h])
      · exact Or.inr h
  | case3 cs ih =>
    rw [subSep.eq_3]
    intro h
    rcases List.mem_cons.mp h with h | h
    · exact Or.inr h
    · rcases ih h with h | h
      · exact Or.inl (by simp [h])
      · exact Or.inr h
  | case4 c' cs h1 h2 h3 ih =>
    rw [subSep.eq_4 c' cs h1 h2 h3]
    intro h
    rcases List.mem_cons.mp h with h | h
    · exact Or.inl (by simp [h])
    · rcases ih h with h | h
      · exact Or.inl (by simp [h])
      · exact Or.inr h
  | case5 => intro h; simp [subSep] at h

theorem mem_cleanChars_fix {r : List Char} :
    ∀ c ∈ cleanChars r, c.toLower = c ∧ c ≠ ' ' := by
  intro c hc
  have hmem : c ∈ subSep (lowerStr r) ∧ (c != ' ') = true := by
    have := List.mem_filter.mp hc
    exact ⟨this.1, this.2⟩
  constructor
  · rcases mem_subSep (lowerStr r) hmem.1 with h | h
    · rcases List.mem_map.mp h with ⟨a, _, rfl⟩
      exact toLower_idem a
    · rw [h]; rfl
  · simpa [bne_iff_ne] using hmem.2

theorem cleanChars_fix {r : List Char} (h : hasPat (cleanChars r) = false) :
    cleanChars (cleanChars r) = cleanChars r := by
  have h1 : lowerStr (cleanChars r) = cleanChars r := by
    unfold lowerStr
    rw [List.map_congr_left (fun a ha => (mem_cleanChars_fix a ha).1)]
    exact List.map_id _
  have h2 : subSep (cleanChars r) = cleanChars r := subSep_eq_self _ h
  have h3 : removeSpaces (cleanChars r) = cleanChars r := by
    unfold removeSpaces
    rw [List.filter_eq_self.mpr]
    intro a ha
    simpa [bne_iff_ne] using (mem_cleanChars_fix a ha).2
  show removeSpaces (subSep (lowerStr (cleanChars r))) = cleanChars r
  rw [h1, h2, h3]

/-- C4 (counterexample): the normalizer is not idempotent.  The raw
credit `"an d"` normalizes to the artist_clean value `"and"` (space
removal creates a fresh occurrence of the replaced word), and
re-running the normalizer on `"and"` yields the artist_list
`["", ""]`, not the original `["and"]`. -/
theorem C4_counterexample :
    clean_artist_name "an d" = "and" ∧
    artistListOf "and" ≠ splitAmpStr "and" := by
  constructor
  · rfl
  · decide

/-- C4 (amended): the normalizer is idempotent on every artist_clean
value in which none of the replaced patterns `feat.`, `ft.`, `and`
occurs: re-running it on such a value yields the same artist_list. -/
theorem C4_idempotent_when_no_pattern (r : String)
    (h : hasPatStr (clean_artist_name r) = false) :
    artistListOf (clean_artist_name r) = splitAmpStr (clean_artist_name r) := by
  unfold artistListOf
  congr 1
  show clean_artist_name (clean_artist_name r) = clean_artist_name r
  have : cleanChars (cleanChars r.data) = cleanChars r.data := cleanChars_fix h
  unfold clean_artist_name
  simp only [this]

/-- Witness for the amended C4 at the spec's own example credit. -/
theorem C4_idempotent_witness :
    hasPatStr (clean_artist_name "Artist A feat. Artist B") = false ∧
    artistListOf (clean_artist_name "Artist A feat. Artist B") =
      splitAmpStr (clean_artist_name "Artist A feat. Artist B") :=
  ⟨by decide, C4_idempotent_when_no_pattern "Artist A feat. Artist B" (by decide)⟩


theorem mem_dropDupAux {α : Type} [DecidableEq α] (l : List α) :
    ∀ (seen : List α) (a : α), a ∈ dropDupAux seen l ↔ a ∈ l ∧ a ∉ seen := by
  induction l with
  | nil => intro seen a; simp [dropDupAux]
  | cons x xs ih =>
    intro seen a
    by_cases hx : x ∈ seen
    · rw [dropDupAux, if_pos hx, ih]
      constructor
      · rintro ⟨h1, h2⟩; exact ⟨List.mem_cons_of_mem _ h1, h2⟩
      · rintro ⟨h1, h2⟩
        rcases List.mem_cons.mp h1 with rfl | h1
        · exact absurd hx h2
        · exact ⟨h1, h2⟩
    · rw [dropDupAux, if_neg hx]
      rw [List.mem_cons, ih]
      constructor
      · rintro (rfl | ⟨h1, h2⟩)
        · exact ⟨List.mem_cons_self _ _, hx⟩
        · exact ⟨List.mem_cons_of_mem _ h1, fun hs => h2 (List.mem_cons_of_mem _ hs)⟩
      · rintro ⟨h1, h2⟩
        rcases List.mem_cons.mp h1 with rfl | h1
        · exact Or.inl rfl
        · by_cases hax : a = x
          · exact Or.inl hax
          · exact Or.inr ⟨h1, fun hs => (List.mem_cons.mp hs).elim hax h2⟩

theorem mem_dropDup {α : Type} [DecidableEq α] (l : List α) (a : α) :
    a ∈ dropDup l ↔ a ∈ l := by
  rw [dropDup, mem_dropDupAux]
  simp

theorem nodup_dropDupAux {α : Type} [DecidableEq α] (l : List α) :
    ∀ seen : List α, (dropDupAux seen l).Nodup := by
  induction l with
  | nil => intro seen; simp [dropDupAux]
  | cons x xs ih =>
    intro seen
    by_cases hx : x ∈ seen
    · rw [dropDupAux, if_pos hx]; exact ih seen
    · rw [dropDupAux, if_neg hx]
      rw [List.nodup_cons]
      refine ⟨fun hmem => ?_, ih _⟩
      exact ((mem_dropDupAux xs _ x).mp hmem).2 (List.mem_cons_self x seen)

theorem nodup_dropDup {α : Type} [DecidableEq α] (l : List α) : (dropDup l).Nodup :=
  nodup_dropDupAux l []

/-- The rows surviving deduplication and the required-field filter are
exactly the complete rows of the source. -/
theorem mem_survivors (t : RawTable) (r : RawRow) :
    r ∈ (dropDup t.rows).filter RawRow.complete ↔ r ∈ t.rows ∧ r.complete = true := by
  rw [List.mem_filter, mem_dropDup]

/-- C8 (counterexample): the loader does not fail on every unparsable
non-missing position value.  In `c8table` the only row has the
unparsable position token `"x"`, yet because that row also has a
missing song it is removed by the row filter before coercion, and the
loader returns an empty table instead of failing. -/
theorem C8_counterexample :
    (c8table.rows.any fun r => r.position.isBadTok) = true ∧
    load_data c8table = .ok [] := ⟨rfl, rfl⟩

/-- C8 (amended): the loader fails (with no partial result) exactly
when a required column is absent or when some row all four of whose
required fields are non-missing carries an unparsable position or date
token; otherwise it returns exactly the complete rows of the source,
deduplicated once, with position and date coerced. -/
theorem C8_loader_characterization (t : RawTable) :
    ((∃ e, load_data t = .error e) ↔
      (¬(t.hasDate = true ∧ t.hasPosition = true ∧ t.hasSong = true ∧ t.hasArtist = true) ∨
        ∃ r ∈ t.rows, r.complete = true ∧
          (r.position.isBadTok = true ∨ r.date.isBadTok = true))) ∧
    (∀ out, load_data t = .ok out →
      out = ((dropDup t.rows).filter RawRow.complete).map RawRow.extract ∧
      ((dropDup t.rows).filter RawRow.complete).Nodup ∧
      ∀ r ∈ (dropDup t.rows).filter RawRow.complete, r.complete = true) := by
  have hex : ((((dropDup t.rows).filter RawRow.complete).any
        (fun r => r.position.isBadTok) = true) ∨
      (((dropDup t.rows).filter RawRow.complete).any
        (fun r => r.date.isBadTok) = true)) ↔
      ∃ r ∈ t.rows, r.complete = true ∧
        (r.position.isBadTok = true ∨ r.date.isBadTok = true) := by
    simp only [List.any_eq_true, mem_survivors]
    constructor
    · rintro (⟨r, ⟨hr, hc⟩, hb⟩ | ⟨r, ⟨hr, hc⟩, hb⟩)
      · exact ⟨r, hr, hc, Or.inl hb⟩
      · exact ⟨r, hr, hc, Or.inr hb⟩
    · rintro ⟨r, hr, hc, hb | hb⟩
      · exact Or.inl ⟨r, ⟨hr, hc⟩, hb⟩
      · exact Or.inr ⟨r, ⟨hr, hc⟩, hb⟩
  by_cases hcols : (t.hasDate && t.hasPosition && t.hasSong && t.hasArtist) = true
  · have hcols2 : t.hasDate = true ∧ t.hasPosition = true ∧ t.hasSong = true ∧
        t.hasArtist = true := by
      simp only [Bool.and_eq_true] at hcols; tauto
    by_cases hbadp : ((dropDup t.rows).filter RawRow.complete).any
        (fun r => r.position.isBadTok) = true
    · refine ⟨iff_of_true ⟨.badPosition, ?_⟩ (Or.inr (hex.mp (Or.inl hbadp))), ?_⟩
      · simp [load_data, hcols, hbadp]
      · intro out hout
        simp [load_data, hcols, hbadp] at hout
    · by_cases hbadd : ((dropDup t.rows).filter RawRow.complete).any
          (fun r => r.date.isBadTok) = true
      · refine ⟨iff_of_true ⟨.badDate, ?_⟩ (Or.inr (hex.mp (Or.inr hbadd))), ?_⟩
        · simp [load_data, hcols, hbadp, hbadd]
        · intro out hout
          simp [load_data, hcols, hbadp, hbadd] at hout
      · have hok : load_data t =
            .ok (((dropDup t.rows).filter RawRow.complete).map RawRow.extract) := by
          simp [load_data, hcols, hbadp, hbadd]
        constructor
        · constructor
          · rintro ⟨e, he⟩
            rw [hok] at he
            exact absurd he (by simp)
          · rintro (h | h)
            · exact absurd hcols2 h
            · exact absurd (hex.mpr h) (by tauto)
        · intro out hout
          rw [hok] at hout
          have hout2 : out = ((dropDup t.rows).filter RawRow.complete).map RawRow.extract := by
            injection hout with h
            exact h.symm
          refine ⟨hout2, List.Nodup.filter _ (nodup_dropDup _), ?_⟩
          intro r hr
          exact (List.mem_filter.mp hr).2
  · have hcols2 : ¬(t.hasDate = true ∧ t.hasPosition = true ∧ t.hasSong = true ∧
        t.hasArtist = true) := by
      simp only [Bool.and_eq_true] at hcols; tauto
    constructor
    · exact iff_of_true ⟨.missingColumn, by simp [load_data, hcols]⟩ (Or.inl hcols2)
    · intro out hout
      simp [load_data, hcols] at hout

/-- Witness for the amended C8: on `c8good` the loader succeeds and
returns the single deduplicated complete row. -/
theorem C8_loader_witness :
    [({ date := 10, position := 1, song := "s", artist := "a" } : LoadedRow)] =
      ((dropDup c8good.rows).filter RawRow.complete).map RawRow.extract ∧
    ((dropDup c8good.rows).filter RawRow.complete).Nodup ∧
    ∀ r ∈ (dropDup c8good.rows).filter RawRow.complete, r.complete = true :=
  (C8_loader_characterization c8good).2 _ rfl


theorem durationBucket_short_iff (m : ℚ) :
    durationBucket m = some "Short" ↔ 0 < m ∧ m ≤ 2 := by
  unfold durationBucket
  split_ifs with h1 h2 h3 h4
  · exact iff_of_true rfl h1
  · exact iff_of_false (by simp) h1
  · exact iff_of_false (by simp) h1
  · exact iff_of_false (by simp) h1
  · exact iff_of_false (by simp) h1

theorem durationBucket_medium_iff (m : ℚ) :
    durationBucket m = some "Medium" ↔ 2 < m ∧ m ≤ 3 := by
  unfold durationBucket
  split_ifs with h1 h2 h3 h4
  · exact iff_of_false (by simp) (fun hc => absurd hc.1 (not_lt.mpr h1.2))
  · exact iff_of_true rfl h2
  · exact iff_of_false (by simp) h2
  · exact iff_of_false (by simp) h2
  · exact iff_of_false (by simp) h2

theorem durationBucket_long_iff (m : ℚ) :
    durationBucket m = some "Long" ↔ 3 < m ∧ m ≤ 4 := by
  unfold durationBucket
  split_ifs with h1 h2 h3 h4
  · exact iff_of_false (by simp) (fun hc => absurd hc.1 (not_lt.mpr (by linarith [h1.2])))
  · exact iff_of_false (by simp) (fun hc => absurd hc.1 (not_lt.mpr h2.2))
  · exact iff_of_true rfl h3
  · exact iff_of_false (by simp) h3
  · exact iff_of_false (by simp) h3

theorem durationBucket_veryLong_iff (m : ℚ) :
    durationBucket m = some "Very Long" ↔ 4 < m ∧ m ≤ 10 := by
  unfold durationBucket
  split_ifs with h1 h2 h3 h4
  · exact iff_of_false (by simp) (fun hc => absurd hc.1 (not_lt.mpr (by linarith [h1.2])))
  · exact iff_of_false (by simp) (fun hc => absurd hc.1 (not_lt.mpr (by linarith [h2.2])))
  · exact iff_of_false (by simp) (fun hc => absurd hc.1 (not_lt.mpr h3.2))
  · exact iff_of_true rfl h4
  · exact iff_of_false (by simp) h4

theorem durationBucket_none_iff (m : ℚ) :
    durationBucket m = none ↔ m ≤ 0 ∨ 10 < m := by
  unfold durationBucket
  split_ifs with h1 h2 h3 h4
  · refine iff_of_false (by simp) ?_
    push_neg
    exact ⟨h1.1, by linarith [h1.2]⟩
  · refine iff_of_false (by simp) ?_
    push_neg
    exact ⟨by linarith [h2.1], by linarith [h2.2]⟩
  · refine iff_of_false (by simp) ?_
    push_neg
    exact ⟨by linarith [h3.1], by linarith [h3.2]⟩
  · refine iff_of_false (by simp) ?_
    push_neg
    exact ⟨by linarith [h4.1], h4.2⟩
  · refine iff_of_true rfl ?_
    by_cases hm : m ≤ 0
    · exact Or.inl hm
    · push_neg at hm h1 h2 h3 h4
      exact Or.inr (h4 (h3 (h2 (h1 hm))))

/-- C7 (confirmed): the enricher sets `duration_minutes` to
`duration_ms / 60000` cell-wise and buckets the minutes into
Short/Medium/Long/"Very Long" on the intervals (0,2], (2,3], (3,4],
(4,10], with values that are 0 or outside (0,10] receiving the missing
bucket; 150000 ms yields 2.5 minutes and the "Medium" bucket. -/
theorem C7_duration_features :
    (∀ df : DF,
      (add_duration_features df).duration_minutes =
        some (df.duration_ms.map (fun ms => ms / 60000)) ∧
      (add_duration_features df).duration_bucket =
        some ((df.duration_ms.map (fun ms => ms / 60000)).map durationBucket)) ∧
    (∀ m : ℚ,
      (durationBucket m = some "Short" ↔ 0 < m ∧ m ≤ 2) ∧
      (durationBucket m = some "Medium" ↔ 2 < m ∧ m ≤ 3) ∧
      (durationBucket m = some "Long" ↔ 3 < m ∧ m ≤ 4) ∧
      (durationBucket m = some "Very Long" ↔ 4 < m ∧ m ≤ 10) ∧
      (durationBucket m = none ↔ m ≤ 0 ∨ 10 < m)) ∧
    (add_duration_features df150).duration_minutes = some [(2.5 : ℚ)] ∧
    (add_duration_features df150).duration_bucket = some [some "Medium"] := by
  refine ⟨fun df => ⟨rfl, rfl⟩, fun m => ⟨durationBucket_short_iff m,
    durationBucket_medium_iff m, durationBucket_long_iff m,
    durationBucket_veryLong_iff m, durationBucket_none_iff m⟩, ?_, ?_⟩
  · show some [(150000 : ℚ) / 60000] = some [(2.5 : ℚ)]
    norm_num
  · show some [durationBucket ((150000 : ℚ) / 60000)] = some [some "Medium"]
    have : durationBucket ((150000 : ℚ) / 60000) = some "Medium" :=
      (durationBucket_medium_iff _).mpr (by norm_num)
    rw [this]


theorem explodeCell_length (l : List String) : (explodeCell l).length = max 1 l.length := by
  cases l with
  | nil => rfl
  | cons a as =>
    show ((a :: as).map some).length = max 1 (a :: as).length
    simp [Nat.max_eq_right]

theorem create_length (ls : List (List String)) :
    (create_artist_level_table ls).length = (ls.map (fun l => max 1 l.length)).sum := by
  unfold create_artist_level_table
  rw [List.length_flatMap]
  congr 1
  have h1 : ∀ p : ℕ × List String,
      (List.length ∘ fun p : ℕ × List String =>
        (explodeCell p.2).map (fun e => (p.1, e))) p = max 1 p.2.length := by
    intro p
    show ((explodeCell p.2).map (fun e => (p.1, e))).length = max 1 p.2.length
    rw [List.length_map, explodeCell_length]
  rw [List.map_congr_left (fun p _ => h1 p)]
  rw [show (fun p : ℕ × List String => max 1 p.2.length) =
    (fun l : List String => max 1 l.length) ∘ Prod.snd from rfl]
  rw [← List.map_map, List.enum_map_snd]

theorem create_aux_filter (ls : List (List String)) :
    ∀ (n i : ℕ), ((List.enumFrom n ls).flatMap
        (fun p => (explodeCell p.2).map (fun e => (p.1, e)))).filter
          (fun r => decide (r.1 = i)) =
      if h : n ≤ i ∧ i - n < ls.length
      then (explodeCell (ls.get ⟨i - n, h.2⟩)).map (fun e => (i, e))
      else [] := by
  induction ls with
  | nil =>
    intro n i
    rw [dif_neg (by simp only [List.length_nil]; omega)]
    rfl
  | cons x xs ih =>
    intro n i
    rw [List.enumFrom, List.flatMap_cons, List.filter_append, ih (n + 1) i]
    by_cases hni : n = i
    · subst hni
      have h1 : (((explodeCell x).map (fun e => (n, e))).filter
          (fun r => decide (r.1 = n))) = (explodeCell x).map (fun e => (n, e)) := by
        rw [List.filter_eq_self]
        intro a ha
        rcases List.mem_map.mp ha with ⟨e, _, rfl⟩
        simp
      rw [h1, dif_neg (by omega),
        dif_pos (by simp only [List.length_cons]; constructor <;> omega)]
      simp
    · have h1 : (((explodeCell x).map (fun e => (n, e))).filter
          (fun r => decide (r.1 = i))) = [] := by
        rw [List.filter_eq_nil_iff]
        intro a ha
        rcases List.mem_map.mp ha with ⟨e, _, rfl⟩
        simp [hni]
      rw [h1, List.nil_append]
      by_cases hc : n + 1 ≤ i ∧ i - (n + 1) < xs.length
      · rw [dif_pos hc, dif_pos (show n ≤ i ∧ i - n < (x :: xs).length by
          simp only [List.length_cons]; omega)]
        have hfin : (⟨i - n, by simp only [List.length_cons]; omega⟩ :
            Fin (x :: xs).length) =
            ⟨(i - (n + 1)) + 1, by simp only [List.length_cons]; omega⟩ := by
          apply Fin.ext
          simp only []
          omega
        rw [hfin, List.get_cons_succ]
      · rw [dif_neg (show ¬(n ≤ i ∧ i - n < (x :: xs).length) by
          simp only [List.length_cons]; omega), dif_neg hc]

/-- C6 (counterexample): the expander does not drop tracks with an
empty artist_list.  Exploding the one-track table whose artist_list is
empty produces one row with a missing artist cell, not zero rows. -/
theorem C6_counterexample :
    create_artist_level_table [[]] = [(0, none)] ∧
    (create_artist_level_table [[]]).length ≠ ([([] : List String)].map
      (fun l => l.length)).sum := by
  constructor
  · rfl
  · decide

/-- C6 (amended): the expander produces, for every track in index
order, one row per artist of its artist_list in list order (so a
one-element list yields exactly one row), except that a track with an
empty artist_list yields exactly one row with a missing artist cell;
the row count is the sum over tracks of max(1, len(artist_list)). -/
theorem C6_expander_rows (ls : List (List String)) :
    (create_artist_level_table ls).length = (ls.map (fun l => max 1 l.length)).sum ∧
    (∀ (i : ℕ) (h : i < ls.length),
      (create_artist_level_table ls).filter (fun r => decide (r.1 = i)) =
        (explodeCell (ls.get ⟨i, h⟩)).map (fun e => (i, e))) ∧
    (∀ (i : ℕ) (h : i < ls.length) (a : String), ls.get ⟨i, h⟩ = [a] →
      (create_artist_level_table ls).filter (fun r => decide (r.1 = i)) =
        [(i, some a)]) := by
  have hfilter : ∀ (i : ℕ) (h : i < ls.length),
      (create_artist_level_table ls).filter (fun r => decide (r.1 = i)) =
        (explodeCell (ls.get ⟨i, h⟩)).map (fun e => (i, e)) := by
    intro i h
    have := create_aux_filter ls 0 i
    rw [show List.enumFrom 0 ls = ls.enum from rfl] at this
    unfold create_artist_level_table
    rw [this, dif_pos (⟨Nat.zero_le i, by omega⟩ : 0 ≤ i ∧ i - 0 < ls.length)]
    congr 1
  refine ⟨create_length ls, hfilter, ?_⟩
  intro i h a ha
  rw [hfilter i h, ha]
  rfl

/-- Witness for the amended C6 on a concrete three-track table. -/
theorem C6_expander_witness :
    (create_artist_level_table [["a"], [], ["b", "c"]]).length =
      ([["a"], [], ["b", "c"]].map (fun l => max 1 l.length)).sum ∧
    (create_artist_level_table [["a"], [], ["b", "c"]]).filter
        (fun r => decide (r.1 = 2)) =
      (explodeCell ([["a"], [], ["b", "c"]].get ⟨2, by norm_num⟩)).map
        (fun e => (2, e)) ∧
    (create_artist_level_table [["a"], [], ["b", "c"]]).filter
        (fun r => decide (r.1 = 0)) = [(0, some "a")] := by
  obtain ⟨h1, h2, h3⟩ := C6_expander_rows [["a"], [], ["b", "c"]]
  exact ⟨h1, h2 2 (by norm_num), h3 0 (by norm_num) "a" rfl⟩


theorem edgeKey_eq_iff (a b c d : String) :
    edgeKey a b = edgeKey c d ↔ (a = c ∧ b = d) ∨ (a = d ∧ b = c) := by
  unfold edgeKey
  split_ifs with h1 h2 h2
  · rw [Prod.mk.injEq]
    constructor
    · exact fun h => Or.inl h
    · rintro (h | ⟨rfl, rfl⟩)
      · exact h
      · exact ⟨le_antisymm h1 h2, le_antisymm h2 h1⟩
  · rw [Prod.mk.injEq]
    constructor
    · rintro ⟨rfl, rfl⟩
      exact Or.inr ⟨rfl, rfl⟩
    · rintro (⟨rfl, rfl⟩ | ⟨rfl, rfl⟩)
      · exact absurd h1 h2
      · exact ⟨rfl, rfl⟩
  · rw [Prod.mk.injEq]
    constructor
    · rintro ⟨rfl, rfl⟩
      exact Or.inr ⟨rfl, rfl⟩
    · rintro (⟨rfl, rfl⟩ | ⟨rfl, rfl⟩)
      · exact absurd h2 h1
      · exact ⟨rfl, rfl⟩
  · rw [Prod.mk.injEq]
    constructor
    · rintro ⟨rfl, rfl⟩
      exact Or.inl ⟨rfl, rfl⟩
    · rintro (⟨rfl, rfl⟩ | ⟨rfl, rfl⟩)
      · exact ⟨rfl, rfl⟩
      · exact absurd (le_of_not_le h1) h2

theorem mem_allPairs {α : Type} {p : α × α} :
    ∀ {l : List α}, p ∈ allPairs l → p.1 ∈ l ∧ p.2 ∈ l := by
  intro l
  induction l with
  | nil => intro h; simp [allPairs] at h
  | cons x xs ih =>
    intro h
    rw [allPairs, List.mem_append] at h
    rcases h with h | h
    · rcases List.mem_map.mp h with ⟨y, hy, rfl⟩
      exact ⟨List.mem_cons_self _ _, List.mem_cons_of_mem _ hy⟩
    · obtain ⟨h1, h2⟩ := ih h
      exact ⟨List.mem_cons_of_mem _ h1, List.mem_cons_of_mem _ h2⟩

theorem allPairs_fst_ne_snd {α : Type} {l : List α} (hnd : l.Nodup) :
    ∀ p ∈ allPairs l, p.1 ≠ p.2 := by
  induction l with
  | nil => intro p hp; simp [allPairs] at hp
  | cons x xs ih =>
    intro p hp
    rw [allPairs, List.mem_append] at hp
    rcases hp with hp | hp
    · rcases List.mem_map.mp hp with ⟨y, hy, rfl⟩
      intro hxy
      have hxy2 : x = y := hxy
      exact (List.nodup_cons.mp hnd).1 (by rw [hxy2]; exact hy)
    · exact ih (List.nodup_cons.mp hnd).2 p hp

theorem length_allPairs {α : Type} (l : List α) :
    2 * (allPairs l).length = l.length * (l.length - 1) := by
  induction l with
  | nil => rfl
  | cons x xs ih =>
    rw [allPairs, List.length_append, List.length_map, List.length_cons,
      Nat.succ_sub_one]
    cases hx : xs.length with
    | zero =>
      rw [hx] at ih
      omega
    | succ m =>
      rw [hx] at ih
      rw [Nat.succ_sub_one] at ih
      have h1 : (m + 1) * m + 2 * (m + 1) = (m + 1 + 1) * (m + 1) := by ring
      linarith [ih, h1]

theorem addPairs_edges :
    ∀ (ps : List (String × String)) (g : Graph), (g.addPairs ps).edges =
      g.edges ∪ (ps.map (fun p => edgeKey p.1 p.2)).toFinset := by
  intro ps
  induction ps with
  | nil => intro g; simp [Graph.addPairs]
  | cons p ps ih =>
    intro g
    rw [Graph.addPairs, ih]
    ext e
    simp only [Graph.addEdge, List.map_cons, List.toFinset_cons, Finset.mem_union,
      Finset.mem_insert]
    tauto

theorem buildStep_edges_mono {g : Graph} {v : PdVal} {e : String × String}
    (h : e ∈ g.edges) : e ∈ (buildStep g v).edges := by
  cases v with
  | lst l =>
    rw [buildStep]
    split_ifs with hl
    · rw [addPairs_edges]
      exact Finset.mem_union_left _ h
    · exact h
  | str s => exact h
  | na => exact h

theorem mem_foldl_edges : ∀ (col : List PdVal) (g : Graph) (e : String × String),
    e ∈ (col.foldl buildStep g).edges ↔
      e ∈ g.edges ∨ ∃ l, PdVal.lst l ∈ col ∧ 1 < l.length ∧
        ∃ p ∈ allPairs l, e = edgeKey p.1 p.2 := by
  intro col
  induction col with
  | nil => intro g e; simp
  | cons v rest ih =>
    intro g e
    rw [List.foldl_cons, ih]
    constructor
    · rintro (hg | ⟨l, hl, hlen, hp⟩)
      · cases v with
        | lst l =>
          rw [buildStep] at hg
          by_cases hlen : 1 < l.length
          · rw [if_pos hlen, addPairs_edges] at hg
            rcases Finset.mem_union.mp hg with hg | hg
            · exact Or.inl hg
            · rcases List.mem_map.mp (List.mem_toFinset.mp hg) with ⟨p, hp, rfl⟩
              exact Or.inr ⟨l, List.mem_cons_self _ _, hlen, p, hp, rfl⟩
          · rw [if_neg hlen] at hg
            exact Or.inl hg
        | str s => exact Or.inl hg
        | na => exact Or.inl hg
      · exact Or.inr ⟨l, List.mem_cons_of_mem _ hl, hlen, hp⟩
    · rintro (hg | ⟨l, hl, hlen, p, hp, rfl⟩)
      · exact Or.inl (buildStep_edges_mono hg)
      · rcases List.mem_cons.mp hl with hv | hl2
      
        · left
          rw [← hv, buildStep, if_pos hlen, addPairs_edges]
          refine Finset.mem_union_right _ (List.mem_toFinset.mpr ?_)
          exact List.mem_map.mpr ⟨p, hp, rfl⟩
        · exact Or.inr ⟨l, hl2, hlen, p, hp, rfl⟩

theorem nodup_allPairs_keys {l : List String} (hnd : l.Nodup) :
    ((allPairs l).map (fun p => edgeKey p.1 p.2)).Nodup := by
  induction l with
  | nil => simp [allPairs]
  | cons x xs ih =>
    rw [allPairs, List.map_append, List.map_map]
    obtain ⟨hx, hxs⟩ := List.nodup_cons.mp hnd
    refine List.Nodup.append ?_ (ih hxs) ?_
    · refine List.Nodup.map_on ?_ hxs
      intro y hy z hz heq
      rcases (edgeKey_eq_iff x y x z).mp heq with ⟨_, h⟩ | ⟨hxz, hyx⟩
      · exact h
      · exact absurd (hxz ▸ hz) hx
    · intro e he1 he2
      rcases List.mem_map.mp he1 with ⟨y, hy, rfl⟩
      rcases List.mem_map.mp he2 with ⟨p, hp, hpe⟩
      obtain ⟨hp1, hp2⟩ := mem_allPairs hp
      rcases (edgeKey_eq_iff p.1 p.2 x y).mp hpe with ⟨h1, _⟩ | ⟨_, h2⟩
      · exact hx (h1 ▸ hp1)
      · exact hx (h2 ▸ hp2)


theorem edgeKey_self (c : String) : edgeKey c c = (c, c) := by
  rw [edgeKey, if_pos le_rfl]

theorem foldl_buildStep_skip : ∀ (col : List PdVal) (g : Graph),
    (∀ l, PdVal.lst l ∈ col → l.length ≤ 1) → col.foldl buildStep g = g := by
  intro col
  induction col with
  | nil => intro g _; rfl
  | cons v rest ih =>
    intro g h
    rw [List.foldl_cons]
    have hstep : buildStep g v = g := by
      cases v with
      | lst l =>
        have hlen := h l (List.mem_cons_self _ _)
        rw [buildStep, if_neg (by omega)]
      | str s => rfl
      | na => rfl
    rw [hstep]
    exact ih g (fun l hl => h l (List.mem_cons_of_mem _ hl))

/-- C5 (counterexample): the builder can produce a self-loop.  A track
whose artist_list contains the same name twice (as the credit `"x&x"`
or `"x and x"` normalizes to) makes the builder call
`add_edge("x", "x")`, so the edge `("x", "x")` is in the graph. -/
theorem C5_counterexample :
    ("x", "x") ∈ (build_artist_collaboration_network [PdVal.lst ["x", "x"]]).edges := by
  rw [build_artist_collaboration_network, mem_foldl_edges]
  refine Or.inr ⟨["x", "x"], List.mem_cons_self _ _, by norm_num, ("x", "x"), ?_, ?_⟩
  · show ("x", "x") ∈ allPairs ["x", "x"]
    show ("x", "x") ∈ [("x", "x")]
    exact List.mem_singleton.mpr rfl
  · rw [edgeKey_self]

/-- C5 (amended): for every track table the graph contains an edge for
every unordered pair of entries of each artist_list of length greater
than one; the graph has no self-loop provided every artist_list has
pairwise-distinct entries (a duplicated name inside one list produces a
self-loop); a single track with k pairwise-distinct artists (k ≥ 2)
contributes exactly k*(k-1)/2 edges; and tracks whose artist_list has
length at most one contribute neither edges nor nodes. -/
theorem C5_graph_characterization :
    (∀ (col : List PdVal) (l : List String), PdVal.lst l ∈ col → 1 < l.length →
      ∀ p ∈ allPairs l, edgeKey p.1 p.2 ∈
        (build_artist_collaboration_network col).edges) ∧
    (∀ col : List PdVal, (∀ l, PdVal.lst l ∈ col → l.Nodup) →
      ∀ a : String, (a, a) ∉ (build_artist_collaboration_network col).edges) ∧
    (∀ l : List String, l.Nodup → 1 < l.length →
      2 * (build_artist_collaboration_network [PdVal.lst l]).edges.card =
        l.length * (l.length - 1)) ∧
    (∀ col : List PdVal, (∀ l, PdVal.lst l ∈ col → l.length ≤ 1) →
      build_artist_collaboration_network col = Graph.empty) := by
  refine ⟨?_, ?_, ?_, ?_⟩
  · intro col l hl hlen p hp
    rw [build_artist_collaboration_network, mem_foldl_edges]
    exact Or.inr ⟨l, hl, hlen, p, hp, rfl⟩
  · intro col hnd a ha
    rw [build_artist_collaboration_network, mem_foldl_edges] at ha
    rcases ha with ha | ⟨l, hl, hlen, p, hp, hpe⟩
    · simp [Graph.empty] at ha
    · have h1 : edgeKey p.1 p.2 = edgeKey a a := by rw [← hpe, edgeKey_self]
      rcases (edgeKey_eq_iff p.1 p.2 a a).mp h1 with ⟨hx, hy⟩ | ⟨hx, hy⟩ <;>
        exact allPairs_fst_ne_snd (hnd l hl) p hp (hx.trans hy.symm)
  · intro l hnd hlen
    have hb : build_artist_collaboration_network [PdVal.lst l] =
        Graph.empty.addPairs (allPairs l) := by
      rw [build_artist_collaboration_network, List.foldl_cons, List.foldl_nil,
        buildStep, if_pos hlen]
    rw [hb, addPairs_edges]
    rw [show Graph.empty.edges = ∅ from rfl, Finset.empty_union]
    rw [List.toFinset_card_of_nodup (nodup_allPairs_keys hnd)]
    rw [List.length_map]
    exact length_allPairs l
  · intro col h
    exact foldl_buildStep_skip col Graph.empty h

/-- Witness for the amended C5 on the concrete column
`[["a", "b", "c"], ["d"]]`. -/
theorem C5_graph_witness :
    edgeKey "a" "c" ∈ (build_artist_collaboration_network
      [PdVal.lst ["a", "b", "c"], PdVal.lst ["d"]]).edges ∧
    ("a", "a") ∉ (build_artist_collaboration_network
      [PdVal.lst ["a", "b", "c"], PdVal.lst ["d"]]).edges ∧
    2 * (build_artist_collaboration_network [PdVal.lst ["a", "b", "c"]]).edges.card =
      3 * 2 ∧
    build_artist_collaboration_network [PdVal.lst ["d"]] = Graph.empty := by
  obtain ⟨h1, h2, h3, h4⟩ := C5_graph_characterization
  refine ⟨h1 _ ["a", "b", "c"] (List.mem_cons_self _ _) (by norm_num)
      ("a", "c") (by decide), ?_, ?_, ?_⟩
  · refine h2 _ ?_ "a"
    intro l hl
    simp only [List.mem_cons, List.not_mem_nil, or_false, PdVal.lst.injEq] at hl
    rcases hl with rfl | rfl <;> decide
  · exact h3 ["a", "b", "c"] (by decide) (by norm_num)
  · refine h4 _ ?_
    intro l hl
    simp only [List.mem_cons, List.not_mem_nil, or_false, PdVal.lst.injEq] at hl
    rw [hl]
    norm_num

theorem foldl_filterMap_keepList : ∀ (col : List PdVal) (g : Graph),
    col.foldl buildStep g = (col.filterMap keepList).foldl buildStep g := by
  intro col
  induction col with
  | nil => intro g; rfl
  | cons v rest ih =>
    intro g
    cases v with
    | lst l =>
      rw [List.foldl_cons, List.filterMap_cons]
      show rest.foldl buildStep (buildStep g (.lst l)) =
        ((PdVal.lst l) :: rest.filterMap keepList).foldl buildStep g
      rw [List.foldl_cons]
      exact ih _
    | str s =>
      rw [List.foldl_cons, List.filterMap_cons]
      show rest.foldl buildStep g = (rest.filterMap keepList).foldl buildStep g
      exact ih g
    | na =>
      rw [List.foldl_cons, List.filterMap_cons]
      show rest.foldl buildStep g = (rest.filterMap keepList).foldl buildStep g
      exact ih g

/-- C10 (confirmed): the builder is total on columns whose cells need
not be lists, and silently skips every non-list cell: the graph built
from any column equals the graph built from its list-valued cells
alone, and a leading missing or plain-string cell never changes the
result. -/
theorem C10_builder_skips_nonlists :
    (∀ col : List PdVal, build_artist_collaboration_network col =
      build_artist_collaboration_network (col.filterMap keepList)) ∧
    (∀ (s : String) (rest : List PdVal),
      build_artist_collaboration_network (PdVal.str s :: rest) =
        build_artist_collaboration_network rest) ∧
    (∀ rest : List PdVal,
      build_artist_collaboration_network (PdVal.na :: rest) =
        build_artist_collaboration_network rest) :=
  ⟨fun col => foldl_filterMap_keepList col Graph.empty,
   fun _ _ => rfl, fun _ => rfl⟩


theorem sortCounts_perm (l : List (String × ℕ)) : (sortCounts l).Perm l := by
  induction l with
  | nil => rfl
  | cons p ps ih =>
    have hins : ∀ (q : String × ℕ) (m : List (String × ℕ)), (insertDesc q m).Perm (q :: m) := by
      intro q m
      induction m with
      | nil => rfl
      | cons r rs ihm =>
        rw [insertDesc]
        split_ifs with h
        · rfl
        · exact (List.Perm.cons r ihm).trans (List.Perm.swap q r rs)
    show (insertDesc p (sortCounts ps)).Perm (p :: ps)
    exact (hins p (sortCounts ps)).trans (List.Perm.cons p ih)

theorem sum_map_of_nodup {β : Type} [AddCommMonoid β] :
    ∀ (l : List String), l.Nodup → ∀ f : String → β,
      (l.map f).sum = ∑ a in l.toFinset, f a := by
  intro l
  induction l with
  | nil => intro _ f; simp
  | cons x xs ih =>
    intro hnd f
    obtain ⟨hx, hxs⟩ := List.nodup_cons.mp hnd
    rw [List.map_cons, List.sum_cons, List.toFinset_cons,
      Finset.sum_insert (by simpa using hx), ih hxs f]

theorem toFinset_dropDup {α : Type} [DecidableEq α] (l : List α) :
    (dropDup l).toFinset = l.toFinset := by
  ext a
  simp only [List.mem_toFinset, mem_dropDup]

/-- Sums of a function over the `value_counts` table reduce to finite
sums over the distinct non-missing values. -/
theorem sum_valueCounts {β : Type} [AddCommMonoid β]
    (es : List (Option String)) (f : String × ℕ → β) :
    ((valueCounts es).map f).sum =
      ∑ a in (es.filterMap id).toFinset, f (a, (es.filterMap id).count a) := by
  unfold valueCounts
  rw [List.Perm.sum_eq (List.Perm.map f (sortCounts_perm _))]
  rw [List.map_map]
  have := sum_map_of_nodup (dropDup (es.filterMap id)) (nodup_dropDup _)
    (fun a => f (a, (es.filterMap id).count a))
  rw [← toFinset_dropDup (es.filterMap id)]
  exact this

theorem sum_count_toFinset (xs : List String) :
    ∑ a in xs.toFinset, xs.count a = xs.length := by
  have h := Multiset.toFinset_sum_count_eq (xs : Multiset String)
  simp only [Multiset.coe_count, Multiset.coe_card] at h
  exact h

theorem sum_sq_le_sq_sum {α : Type} (s : Finset α) (c : α → ℕ) :
    ∑ a in s, c a ^ 2 ≤ (∑ a in s, c a) ^ 2 := by
  calc ∑ a in s, c a ^ 2 ≤ ∑ a in s, c a * ∑ b in s, c b := by
        refine Finset.sum_le_sum (fun a ha => ?_)
        rw [pow_two]
        exact Nat.mul_le_mul_left _
          (Finset.single_le_sum (fun _ _ => Nat.zero_le _) ha)
    _ = (∑ a in s, c a) ^ 2 := by rw [← Finset.sum_mul, pow_two]

theorem sum_sq_lt_sq_sum {α : Type} [DecidableEq α] (s : Finset α) (c : α → ℕ)
    (hcard : 2 ≤ s.card) (hone : ∀ a ∈ s, 1 ≤ c a) :
    ∑ a in s, c a ^ 2 < (∑ a in s, c a) ^ 2 := by
  obtain ⟨a, ha⟩ := Finset.card_pos.mp (show 0 < s.card by omega)
  have herase : 1 ≤ (s.erase a).card := by
    rw [Finset.card_erase_of_mem ha]
    omega
  obtain ⟨b, hb⟩ := Finset.card_pos.mp (show 0 < (s.erase a).card by omega)
  have hA : 1 ≤ c a := hone a ha
  have hR : 1 ≤ ∑ x in s.erase a, c x :=
    le_trans (hone b (Finset.mem_of_mem_erase hb))
      (Finset.single_le_sum (fun _ _ => Nat.zero_le _) hb)
  have hQ : ∑ x in s.erase a, c x ^ 2 ≤ (∑ x in s.erase a, c x) ^ 2 :=
    sum_sq_le_sq_sum _ _
  have h1 : ∑ x in s.erase a, c x ^ 2 + c a ^ 2 = ∑ x in s, c x ^ 2 :=
    Finset.sum_erase_add s _ ha
  have h2 : ∑ x in s.erase a, c x + c a = ∑ x in s, c x :=
    Finset.sum_erase_add s _ ha
  rw [← h1, ← h2]
  nlinarith [hA, hR, hQ]

theorem sum_sq_eq_sq_sum_iff {α : Type} [DecidableEq α] (s : Finset α) (c : α → ℕ)
    (hne : s.Nonempty) (hone : ∀ a ∈ s, 1 ≤ c a) :
    (∑ a in s, c a ^ 2 = (∑ a in s, c a) ^ 2) ↔ s.card = 1 := by
  constructor
  · intro heq
    by_contra hcard
    have h2 : 2 ≤ s.card := by
      have := Finset.card_pos.mpr hne
      omega
    exact absurd heq (Nat.ne_of_lt (sum_sq_lt_sq_sum s c h2 hone))
  · intro hcard
    obtain ⟨a, rfl⟩ := Finset.card_eq_one.mp hcard
    rw [Finset.sum_singleton, Finset.sum_singleton]

/-- C2 (code evaluation at the failing input): on the empty filtered
track table the engine does fail, but by raising the
`ZeroDivisionError` of the Python integer division
`unique_artist_count / total_tracks` at the `DiversityScore` step
(after the concentration ratios have already been computed against the
zero denominator); no `EmptyDatasetError` exists in the source.  The
call returns no KPI mapping and the input frame is left unchanged. -/
theorem C2_empty_table_zero_division :
    calculate_market_kpis emptyDF (create_artist_level_table []) =
      (.error .zeroDivisionError, emptyDF) := rfl

/-- C9 (counterexample): the KPI engine does not leave its input track
table unchanged: on a concrete one-row frame the caller's frame after
the call carries a new `is_collaboration` column. -/
theorem C9_counterexample :
    (calculate_market_kpis df150 (create_artist_level_table [["a"]])).2 ≠ df150 := by
  intro h
  have h2 := congrArg DF.is_collaboration h
  have h3 : (calculate_market_kpis df150
      (create_artist_level_table [["a"]])).2.is_collaboration = some [false] := rfl
  rw [h3] at h2
  exact Option.noConfusion h2

/-- C9 (amended): the pipeline operations are deterministic state
transformations but mutate their argument: the engine writes the
`is_collaboration` column into the caller's track table whenever the
table is non-empty (on the empty table it raises before the write and
the table is unchanged), and the normalizer, enricher and rank-grouper
write exactly their derived columns into the caller's table, leaving
every other column unchanged. -/
theorem C9_mutation_characterization :
    (∀ (df : DF) (art : List (ℕ × Option String)), 0 < df.nrows →
      (calculate_market_kpis df art).2 =
        { df with is_collaboration := some (df.artist.map containsAmp) }) ∧
    (∀ (df : DF) (art : List (ℕ × Option String)), df.nrows = 0 →
      (calculate_market_kpis df art).2 = df) ∧
    (∀ df : DF, normalize_artist_names df =
      { df with
        artist_clean := some (df.artist.map clean_artist_name)
        artist_list := some ((df.artist.map clean_artist_name).map splitAmpStr) }) ∧
    (∀ df : DF, add_duration_features df =
      { df with
        duration_minutes := some (df.duration_ms.map (fun ms => ms / 60000))
        duration_bucket := some ((df.duration_ms.map (fun ms => ms / 60000)).map
          durationBucket) }) ∧
    (∀ df : DF, create_rank_groups df =
      { df with rank_group := some (df.position.map rank_category) }) := by
  refine ⟨?_, ?_, fun df => rfl, fun df => rfl, fun df => rfl⟩
  · intro df art h
    unfold calculate_market_kpis
    simp only [if_neg (by omega : ¬df.nrows = 0)]
  · intro df art h
    unfold calculate_market_kpis
    simp only [if_pos h]

/-- Witness for the amended C9 on concrete frames. -/
theorem C9_mutation_witness :
    (calculate_market_kpis df150 []).2 =
      { df150 with is_collaboration := some (df150.artist.map containsAmp) } ∧
    (calculate_market_kpis emptyDF []).2 = emptyDF ∧
    normalize_artist_names df150 =
      { df150 with
        artist_clean := some (df150.artist.map clean_artist_name)
        artist_list := some ((df150.artist.map clean_artist_name).map splitAmpStr) } := by
  obtain ⟨h1, h2, h3, _, _⟩ := C9_mutation_characterization
  exact ⟨h1 df150 [] (by norm_num [DF.nrows, df150]), h2 emptyDF [] rfl, h3 df150⟩


theorem amp_mem_subSep : ∀ s : List Char, '&' ∈ s → '&' ∈ subSep s := by
  intro s
  induction s using subSep.induct with
  | case1 cs ih => intro _; rw [subSep.eq_1]; exact List.mem_cons_self _ _
  | case2 cs ih => intro _; rw [subSep.eq_2]; exact List.mem_cons_self _ _
  | case3 cs ih => intro _; rw [subSep.eq_3]; exact List.mem_cons_self _ _
  | case4 c cs h1 h2 h3 ih =>
    intro h
    rw [subSep.eq_4 c cs h1 h2 h3]
    rcases List.mem_cons.mp h with rfl | h
    · exact List.mem_cons_self _ _
    · exact List.mem_cons_of_mem _ (ih h)
  | case5 => intro h; exact absurd h (List.not_mem_nil _)

theorem amp_mem_cleanChars {s : List Char} (h : '&' ∈ s) : '&' ∈ cleanChars s := by
  unfold cleanChars removeSpaces
  rw [List.mem_filter]
  refine ⟨amp_mem_subSep _ ?_, by decide⟩
  exact List.mem_map.mpr ⟨'&', h, by decide⟩

theorem splitAmp_length_pos : ∀ s : List Char, 0 < (splitAmp s).length := by
  intro s
  induction s using splitAmp.induct with
  | case1 => rw [splitAmp.eq_1]; norm_num
  | case2 cs ih => rw [splitAmp.eq_2]; simp
  | case3 c cs hne hnil ih =>
    rw [splitAmp.eq_3 c cs hne, hnil]
    norm_num
  | case4 c cs hne t ts hcons ih =>
    rw [splitAmp.eq_3 c cs hne, hcons]
    simp

theorem splitAmp_length_of_amp : ∀ s : List Char, '&' ∈ s → 1 < (splitAmp s).length := by
  intro s
  induction s using splitAmp.induct with
  | case1 => intro h; exact absurd h (List.not_mem_nil _)
  | case2 cs ih =>
    intro _
    rw [splitAmp.eq_2, List.length_cons]
    have := splitAmp_length_pos cs
    omega
  | case3 c cs hne hnil ih =>
    intro h
    rcases List.mem_cons.mp h with h | h
    · exact absurd h (fun he => hne he.symm)
    · have := ih h
      rw [hnil] at this
      norm_num at this
  | case4 c cs hne t ts hcons ih =>
    intro h
    rcases List.mem_cons.mp h with h | h
    · exact absurd h (fun he => hne he.symm)
    · have h2 := ih h
      rw [hcons] at h2
      rw [splitAmp.eq_3 c cs hne, hcons]
      simp only [List.length_cons] at h2 ⊢
      omega

theorem artistListOf_length_of_amp {s : String} (h : containsAmp s = true) :
    1 < (artistListOf s).length := by
  unfold artistListOf splitAmpStr clean_artist_name
  rw [List.length_map]
  refine splitAmp_length_of_amp _ (amp_mem_cleanChars ?_)
  unfold containsAmp at h
  exact List.elem_iff.mp h

/-- Evaluation of the engine on a non-empty track table: the returned
frame and the two KPI projections the claims need. -/
theorem engine_pos_eval (df : DF) (art : List (ℕ × Option String)) (h : ¬df.nrows = 0) :
    (calculate_market_kpis df art).2 =
      { df with is_collaboration := some (df.artist.map containsAmp) } ∧
    (resultKPIs (calculate_market_kpis df art)).map KPIs.CollaborationRatio =
      some (boolMean (df.artist.map containsAmp)) ∧
    (resultKPIs (calculate_market_kpis df art)).map KPIs.ACI =
      some (((valueCounts (art.map (fun r => r.2))).map
        (fun p => ((p.2 : ℚ) / (df.nrows : ℚ)) ^ 2)).sum) := by
  unfold calculate_market_kpis resultKPIs
  simp only [if_neg h]
  refine ⟨?_, ?_, ?_⟩ <;> trivial

/-- C3 (counterexample): the is_collaboration flag is not the
artist_list-length criterion.  The track credited
`"Artist A feat. Artist B"` has an artist_list of length two, yet the
engine stores is_collaboration = False for it, because the flag tests
the raw artist string for the literal separator `&`, which the raw
credit does not contain. -/
theorem C3_counterexample :
    (normalize_artist_names df3).artist_list = some [["artista", "artistb"]] ∧
    (calculate_market_kpis (normalize_artist_names df3)
      (create_artist_level_table [["artista", "artistb"]])).2.is_collaboration =
      some [false] := by
  exact ⟨rfl, rfl⟩

/-- C3 (amended): the derived is_collaboration flag is true exactly
when the RAW artist credit contains the literal separator `&` (so a
collaboration marked only by `feat.`, `ft.` or `and` is flagged
False), and CollaborationRatio is the fraction of rows of the filtered
track table whose raw credit contains `&`; a raw credit that does
contain `&` always has an artist_list of length greater than one. -/
theorem C3_collaboration_flag (df : DF) (art : List (ℕ × Option String))
    (h : 0 < df.nrows) :
    (calculate_market_kpis df art).2.is_collaboration =
      some (df.artist.map containsAmp) ∧
    (resultKPIs (calculate_market_kpis df art)).map KPIs.CollaborationRatio =
      some (((df.artist.map containsAmp).count true : ℚ) / (df.nrows : ℚ)) ∧
    (∀ s ∈ df.artist, containsAmp s = true → 1 < (artistListOf s).length) := by
  obtain ⟨h1, h2, _⟩ := engine_pos_eval df art (by omega)
  refine ⟨by rw [h1], ?_, fun s _ hs => artistListOf_length_of_amp hs⟩
  rw [h2]
  congr 1
  unfold boolMean
  rw [List.length_map]
  rfl

/-- Witness for the amended C3 on a concrete two-row frame. -/
theorem C3_collaboration_witness :
    (calculate_market_kpis dfW []).2.is_collaboration = some [true, false] ∧
    (resultKPIs (calculate_market_kpis dfW [])).map KPIs.CollaborationRatio =
      some (((dfW.artist.map containsAmp).count true : ℚ) / (dfW.nrows : ℚ)) ∧
    1 < (artistListOf "a&b").length := by
  obtain ⟨h1, h2, h3⟩ := C3_collaboration_flag dfW [] (by decide)
  refine ⟨?_, h2, h3 "a&b" (List.mem_cons_self _ _) rfl⟩
  rw [h1]
  rfl

/-- C1 (counterexample): the engine's ACI is not bounded by 1.  For the
one-track table whose single track is credited to the two artists
`a` and `b`, the artist-expanded table has two rows, each artist's
share is 1/1, and the returned ACI is 2. -/
theorem C1_counterexample :
    (resultKPIs (calculate_market_kpis df1
      (create_artist_level_table [["a", "b"]]))).map KPIs.ACI = some 2 ∧
    ¬((2 : ℚ) ≤ 1) := by
  constructor
  · obtain ⟨_, _, h3⟩ := engine_pos_eval df1 (create_artist_level_table [["a", "b"]])
      (by decide)
    rw [h3]
    have hvc : valueCounts ((create_artist_level_table [["a", "b"]]).map
        (fun r => r.2)) = [("b", 1), ("a", 1)] := rfl
    rw [hvc]
    simp only [List.map_cons, List.map_nil, List.sum_cons, List.sum_nil]
    norm_num [DF.nrows, df1]
  · norm_num


theorem flatMap_explodeCell : ∀ ls : List (List String), (∀ l ∈ ls, l ≠ []) →
    ls.flatMap explodeCell = (ls.flatMap id).map some := by
  intro ls
  induction ls with
  | nil => intro _; rfl
  | cons l rest ih =>
    intro h
    rw [List.flatMap_cons, List.flatMap_cons, List.map_append,
      ih (fun x hx => h x (List.mem_cons_of_mem _ hx))]
    congr 1
    cases l with
    | nil => exact absurd rfl (h [] (List.mem_cons_self _ _))
    | cons a as => rfl

theorem map_snd_create (ls : List (List String)) (h : ∀ l ∈ ls, l ≠ []) :
    (create_artist_level_table ls).map (fun r : ℕ × Option String => r.2) =
      (ls.flatMap id).map some := by
  unfold create_artist_level_table
  rw [List.map_flatMap]
  have h1 : (fun p : ℕ × List String =>
      ((explodeCell p.2).map (fun e => (p.1, e))).map (fun r : ℕ × Option String => r.2)) =
      fun p : ℕ × List String => explodeCell p.2 := by
    funext p
    rw [List.map_map]
    exact List.map_id _
  rw [h1]
  rw [← List.flatMap_map Prod.snd explodeCell ls.enum, List.enum_map_snd]
  exact flatMap_explodeCell ls h

theorem length_flatMap_singletons : ∀ ls : List (List String),
    (∀ l ∈ ls, l.length = 1) → (ls.flatMap id).length = ls.length := by
  intro ls
  induction ls with
  | nil => intro _; rfl
  | cons l rest ih =>
    intro hs
    rw [List.flatMap_cons, List.length_append,
      ih (fun x hx => hs x (List.mem_cons_of_mem _ hx)), List.length_cons]
    have : (id l).length = 1 := hs l (List.mem_cons_self _ _)
    omega

/-- C1 (amended): for a non-empty track table all of whose tracks
credit a single artist, the engine's ACI lies in (0, 1] and equals 1
exactly when every track credits the same artist; with collaborative
tracks the ACI can exceed 1 (see the counterexample), because the
shares are computed from artist-level rows against the track count. -/
theorem C1_aci_bounds_solo (df : DF) (ls : List (List String))
    (hcol : df.artist_list = some ls)
    (hrows : df.nrows = ls.length)
    (hne : ls ≠ [])
    (hsolo : ∀ l ∈ ls, l.length = 1) :
    ∀ q : ℚ, (resultKPIs (calculate_market_kpis df
        (create_artist_level_table ls))).map KPIs.ACI = some q →
      0 < q ∧ q ≤ 1 ∧ (q = 1 ↔ ∃ a : String, ∀ l ∈ ls, l = [a]) := by
  intro q hq
  have hnz : ¬df.nrows = 0 := by
    rw [hrows]
    intro h0
    exact hne (List.length_eq_zero.mp h0)
  obtain ⟨_, _, h3⟩ := engine_pos_eval df (create_artist_level_table ls) hnz
  rw [h3] at hq
  have hq2 := Option.some_injective _ hq.symm
  clear hq h3
  have hmap : (create_artist_level_table ls).map (fun r : ℕ × Option String => r.2) =
      (ls.flatMap id).map some :=
    map_snd_create ls (fun l hl h0 => by
      have := hsolo l hl
      rw [h0] at this
      exact absurd this (by norm_num))
  set xs : List String := ls.flatMap id with hxs
  have hfm : ((ls.flatMap id).map some).filterMap id = xs := by
    rw [List.filterMap_map]
    exact List.filterMap_some _
  rw [hmap, sum_valueCounts, hfm] at hq2
  have hq2b : q = ∑ a in xs.toFinset, ((xs.count a : ℚ) / (df.nrows : ℚ)) ^ 2 := hq2
  have hlen : xs.length = ls.length := length_flatMap_singletons ls hsolo
  obtain ⟨l0, hl0⟩ := List.exists_mem_of_ne_nil ls hne
  obtain ⟨a0, rfl⟩ := List.length_eq_one.mp (hsolo l0 hl0)
  have ha0 : a0 ∈ xs := by
    rw [hxs]
    exact List.mem_flatMap.mpr ⟨[a0], hl0, List.mem_singleton.mpr rfl⟩
  have hfne : xs.toFinset.Nonempty := ⟨a0, List.mem_toFinset.mpr ha0⟩
  have hone : ∀ a ∈ xs.toFinset, 1 ≤ xs.count a := fun a ha =>
    List.one_le_count_iff.mpr (List.mem_toFinset.mp ha)
  have hK : ∑ a in xs.toFinset, xs.count a = ls.length := by
    rw [sum_count_toFinset, hlen]
  have hnpos : 0 < ls.length := List.length_pos.mpr hne
  have hnq : (0 : ℚ) < (ls.length : ℚ) := by exact_mod_cast hnpos
  have hq3 : q = ((∑ a in xs.toFinset, xs.count a ^ 2 : ℕ) : ℚ) / ((ls.length : ℚ)) ^ 2 := by
    rw [hq2b, hrows]
    rw [Finset.sum_congr rfl
      (fun a _ => div_pow ((xs.count a : ℚ)) ((ls.length : ℚ)) 2)]
    rw [← Finset.sum_div]
    push_cast
    rfl
  set S : ℕ := ∑ a in xs.toFinset, xs.count a ^ 2 with hS
  have hSle : S ≤ ls.length ^ 2 := by
    have h4 := sum_sq_le_sq_sum xs.toFinset (fun a => xs.count a)
    rw [hK] at h4
    exact h4
  have hc0 : 1 ≤ xs.count a0 := List.one_le_count_iff.mpr ha0
  have hS1 : 1 ≤ S := by
    calc 1 ≤ xs.count a0 ^ 2 := Nat.one_le_pow _ _ (by omega)
      _ ≤ S := Finset.single_le_sum (f := fun a => xs.count a ^ 2)
          (fun _ _ => Nat.zero_le _) (List.mem_toFinset.mpr ha0)
  have hcard_iff : xs.toFinset.card = 1 ↔ ∃ a : String, ∀ l ∈ ls, l = [a] := by
    constructor
    · intro hc
      obtain ⟨a, haeq⟩ := Finset.card_eq_one.mp hc
      refine ⟨a, fun l hl => ?_⟩
      obtain ⟨b, rfl⟩ := List.length_eq_one.mp (hsolo l hl)
      have hb2 : b ∈ xs.toFinset := List.mem_toFinset.mpr (by
        rw [hxs]
        exact List.mem_flatMap.mpr ⟨[b], hl, List.mem_singleton.mpr rfl⟩)
      rw [haeq, Finset.mem_singleton] at hb2
      rw [hb2]
    · rintro ⟨a, hall⟩
      rw [Finset.card_eq_one]
      refine ⟨a, ?_⟩
      ext x
      simp only [List.mem_toFinset, Finset.mem_singleton]
      constructor
      · intro hx
        rw [hxs] at hx
        obtain ⟨l, hl, hxl⟩ := List.mem_flatMap.mp hx
        rw [hall l hl] at hxl
        exact List.mem_singleton.mp hxl
      · intro hx
        subst hx
        have h5 := hall _ hl0
        injection h5 with h6 _
        rw [← h6]
        exact ha0
  have hSiff : S = ls.length ^ 2 ↔ xs.toFinset.card = 1 := by
    rw [hS]
    rw [show ls.length ^ 2 = (∑ a in xs.toFinset, xs.count a) ^ 2 by rw [hK]]
    exact sum_sq_eq_sq_sum_iff xs.toFinset (fun a => xs.count a) hfne hone
  refine ⟨?_, ?_, ?_⟩
  · rw [hq3]
    apply div_pos
    · exact_mod_cast hS1
    · positivity
  · rw [hq3]
    rw [div_le_one (by positivity)]
    exact_mod_cast hSle
  · rw [hq3]
    rw [div_eq_iff (ne_of_gt (by positivity : (0 : ℚ) < ((ls.length : ℚ)) ^ 2)),
      one_mul]
    constructor
    · intro hcast
      have hSn : S = ls.length ^ 2 := by exact_mod_cast hcast
      exact hcard_iff.mp (hSiff.mp hSn)
    · intro hex
      have hSn : S = ls.length ^ 2 := hSiff.mpr (hcard_iff.mpr hex)
      exact_mod_cast hSn

/-- Witness for the amended C1: on the two-track all-solo single-artist
frame the engine returns ACI = 1, and the bounds hold there. -/
theorem C1_aci_witness :
    0 < (1 : ℚ) ∧ (1 : ℚ) ≤ 1 ∧ ((1 : ℚ) = 1 ↔ ∃ a : String,
      ∀ l ∈ [["a"], ["a"]], l = [a]) := by
  refine C1_aci_bounds_solo dfSolo [["a"], ["a"]] rfl rfl (by simp) (by decide) 1 ?_
  obtain ⟨_, _, h3⟩ := engine_pos_eval dfSolo
    (create_artist_level_table [["a"], ["a"]]) (by decide)
  rw [h3]
  have hvc : valueCounts ((create_artist_level_table [["a"], ["a"]]).map
      (fun r => r.2)) = [("a", 2)] := rfl
  rw [hvc]
  simp only [List.map_cons, List.map_nil, List.sum_cons, List.sum_nil]
  norm_num [DF.nrows, dfSolo]

end UKTop50
